import Mathlib

/-
Verification of the SP-GiST k-mer trie operator class of the
dna-sequence PostgreSQL extension.

Shallow embedding of the C sources:
  * dna_sequence.h   : nucleotide_to_bits, iupac_code_to_bits
  * dna_sequence.c   : kmer_starts_with
  * spg_kmer.c       : commonPrefix, searchChar, spg_kmer_choose,
                       spg_kmer_picksplit, spg_kmer_inner_consistent,
                       spg_kmer_leaf_consistent

Byte strings (kmer / qkmer payloads) are modelled as `List Nat` whose
elements are the byte values; node labels are `Int` (the C code stores
them as int16).  C functions that can raise an ereport(ERROR) are
modelled with `Option` (`none` = error).
-/

/-! ## Alphabet codec (dna_sequence.h) -/

/-- `nucleotide_to_bits` from dna_sequence.h.  The C switch on the char
values 'A' (65), 'C' (67), 'G' (71), 'T' (84); any other byte raises an
invalid-nucleotide error, modelled as `none`. -/
def nucleotide_to_bits (c : Nat) : Option Nat :=
  if c = 65 then some 1        -- 'A' 0001
  else if c = 67 then some 2   -- 'C' 0010
  else if c = 71 then some 4   -- 'G' 0100
  else if c = 84 then some 8   -- 'T' 1000
  else none

/-- `iupac_code_to_bits` from dna_sequence.h.  The 15 IUPAC letters map
to the union of the bits of their constituent nucleotides; any other
byte raises an invalid-IUPAC error, modelled as `none`. -/
def iupac_code_to_bits (c : Nat) : Option Nat :=
  if c = 65 then some 1                       -- 'A'
  else if c = 67 then some 2                  -- 'C'
  else if c = 71 then some 4                  -- 'G'
  else if c = 84 then some 8                  -- 'T'
  else if c = 82 then some (1 ||| 4)          -- 'R' : A or G
  else if c = 89 then some (2 ||| 8)          -- 'Y' : C or T
  else if c = 83 then some (2 ||| 4)          -- 'S' : G or C
  else if c = 87 then some (1 ||| 8)          -- 'W' : A or T
  else if c = 75 then some (4 ||| 8)          -- 'K' : G or T
  else if c = 77 then some (1 ||| 2)          -- 'M' : A or C
  else if c = 66 then some (2 ||| 4 ||| 8)    -- 'B' : C or G or T
  else if c = 68 then some (1 ||| 4 ||| 8)    -- 'D' : A or G or T
  else if c = 72 then some (1 ||| 2 ||| 8)    -- 'H' : A or C or T
  else if c = 86 then some (1 ||| 2 ||| 4)    -- 'V' : A or C or G
  else if c = 78 then some (1 ||| 2 ||| 4 ||| 8) -- 'N' : any
  else none

/-- The pattern-match primitive: the pattern byte's IUPAC bit set
intersects the key byte's nucleotide bit (both bytes assumed valid, as
enforced by the `Option` values being `some`). -/
def iupacMatches (p k : Nat) : Prop :=
  (iupac_code_to_bits p).getD 0 &&& (nucleotide_to_bits k).getD 0 ≠ 0

instance (p k : Nat) : Decidable (iupacMatches p k) :=
  inferInstanceAs (Decidable (_ ≠ _))

/-! ## Key-buffer helpers (spg_kmer.c) -/

/-- `commonPrefix` from spg_kmer.c: length of the longest common prefix
of two byte strings. -/
def commonPrefix : List Nat → List Nat → Nat
  | a :: as_, b :: bs => if a = b then commonPrefix as_ bs + 1 else 0
  | _, _ => 0

/-- `searchChar`'s binary-search loop from spg_kmer.c, with explicit
bounds `lo`/`hi` (C's StopLow/StopHigh).  Returns (found, index). -/
def searchCharAux (labels : List Int) (c : Int) (lo hi : Nat) : Bool × Nat :=
  if h : lo < hi then
    let mid := (lo + hi) / 2
    let m := labels.getD mid 0
    if c < m then searchCharAux labels c lo mid
    else if m < c then searchCharAux labels c (mid + 1) hi
    else (true, mid)
  else (false, hi)
termination_by hi - lo
decreasing_by
  · omega
  · omega

/-- `searchChar` from spg_kmer.c: binary search an int16 label array for
`c`; on success the index is the match location, on failure the place
where `c` would be inserted. -/
def searchChar (nodeLabels : List Int) (c : Int) : Bool × Nat :=
  searchCharAux nodeLabels c 0 nodeLabels.length

/-! ## spg_kmer_choose (spg_kmer.c) -/

/-- Input struct for `spg_kmer_choose` (the used fields of spgChooseIn). -/
structure ChooseIn where
  datum : List Nat
  level : Nat
  hasPrefix : Bool
  prefixDatum : List Nat
  nodeLabels : List Int
  allTheSame : Bool
deriving DecidableEq

/-- Output of `spg_kmer_choose` (the used fields of spgChooseOut).  The
`splitTuple` fields are, in order: prefixHasPrefix, prefixPrefixDatum,
prefixNodeLabels, childNodeN, postfixHasPrefix, postfixPrefixDatum. -/
inductive ChooseResult where
  | matchNode (nodeN : Nat) (levelAdd : Nat) (restDatum : List Nat)
  | splitTuple (upperHasPrefix : Bool) (upperPrefixDatum : List Nat)
      (upperNodeLabels : List Int) (childNodeN : Nat)
      (lowerHasPrefix : Bool) (lowerPrefixDatum : List Nat)
  | addNode (nodeLabel : Int) (nodeN : Nat)
deriving DecidableEq

/-- The part of `spg_kmer_choose` after `nodeChar` has been computed:
look the label up with `searchChar` and emit spgMatchNode, spgSplitTuple
(all-the-same) or spgAddNode.  In the C code `out.matchNode.restDatum`
is the key suffix after `level + levelAdd` (an empty kmer when nothing
remains, which coincides with `List.drop`). -/
def spg_kmer_choose_tail (cin : ChooseIn) (nodeChar : Int) (commonLen : Nat) : ChooseResult :=
  match searchChar cin.nodeLabels nodeChar with
  | (true, i) =>
      let levelAdd := commonLen + (if 0 ≤ nodeChar then 1 else 0)
      let rest := if cin.level + levelAdd < cin.datum.length
                  then cin.datum.drop (cin.level + levelAdd) else []
      ChooseResult.matchNode i levelAdd rest
  | (false, i) =>
      if cin.allTheSame then
        -- all-the-same split: single node labelled -2, no postfix prefix
        ChooseResult.splitTuple cin.hasPrefix cin.prefixDatum [(-2 : Int)] 0 false []
      else
        ChooseResult.addNode nodeChar i

/-- `spg_kmer_choose` from spg_kmer.c.  The C comparisons on int
differences (`inSize - in->level > commonLen`) are rendered as the
equivalent addition form (`level + commonLen < inSize`) to avoid
truncating natural subtraction.  When prefixHasPrefix (resp.
postfixHasPrefix) is false the C code leaves the corresponding datum
unassigned; the model passes the (then empty) list. -/
def spg_kmer_choose (cin : ChooseIn) : ChooseResult :=
  let inStr := cin.datum
  let inSize := inStr.length
  if cin.hasPrefix then
    let prefixStr := cin.prefixDatum
    let prefixSize := prefixStr.length
    let commonLen := commonPrefix (inStr.drop cin.level) prefixStr
    if commonLen = prefixSize then
      let nodeChar : Int :=
        if cin.level + commonLen < inSize then (inStr.getD (cin.level + commonLen) 0 : Int)
        else -1
      spg_kmer_choose_tail cin nodeChar commonLen
    else
      ChooseResult.splitTuple (decide (commonLen ≠ 0)) (prefixStr.take commonLen)
        [(prefixStr.getD commonLen 0 : Int)] 0
        (decide (prefixSize - commonLen ≠ 1)) (prefixStr.drop (commonLen + 1))
  else
    let nodeChar : Int := if cin.level < inSize then (inStr.getD cin.level 0 : Int) else -1
    spg_kmer_choose_tail cin nodeChar 0

/-! ## spg_kmer_picksplit (spg_kmer.c) -/

/-- SPGIST_MAX_PREFIX_LENGTH = Max((int) (BLCKSZ - 258 * 16 - 100), 32)
with the default BLCKSZ of 8192. -/
def SPGIST_MAX_PREFIX_LENGTH : Nat := max (8192 - 258 * 16 - 100) 32

/-- The first loop of `spg_kmer_picksplit`: fold the common-prefix
length over the batch, starting from the length of datums[0] and
stopping early once it reaches 0. -/
def batchCommonLen : List (List Nat) → Nat
  | [] => 0
  | k0 :: rest =>
      rest.foldl (fun acc ki => if 0 < acc then min acc (commonPrefix k0 ki) else acc) k0.length

/-- Discriminator label of one input key: the byte after the common
prefix, or -1 if the key is exhausted by the common prefix
(`nodes[i].c` in the C code). -/
def discriminator (commonLen : Nat) (k : List Nat) : Int :=
  if commonLen < k.length then (k.getD commonLen 0 : Int) else -1

/-- The (label, original index) pairs built before sorting
(`spgNodePtr.c` and `spgNodePtr.i`). -/
def discPairs (commonLen : Nat) (i : Nat) : List (List Nat) → List (Int × Nat)
  | [] => []
  | k :: rest => (discriminator commonLen k, i) :: discPairs commonLen (i + 1) rest

/-- The second loop of `spg_kmer_picksplit` over the label-sorted batch:
emit a new node label whenever the label differs from the previous
element's label (`i == 0 || nodes[i].c != nodes[i-1].c`), and assign the
tuple to node `out->nNodes - 1`.  `prev` is the previous element's
label, `labels`/`asg` the output arrays built so far. -/
def psLoop : List (Int × Nat) → Option Int → List Int → List (Nat × Nat) →
    List Int × List (Nat × Nat)
  | [], _, labels, asg => (labels, asg)
  | (c, i) :: rest, prev, labels, asg =>
      let labels' := if prev = some c then labels else labels ++ [c]
      psLoop rest (some c) labels' (asg ++ [(i, labels'.length - 1)])

/-- Output of `spg_kmer_picksplit`.  `mapPairs` lists the
(tuple index, node index) assignments (the C code scatters them into
`mapTuplesToNodes` by tuple index); `leafTupleDatums` is indexed by the
original tuple position, matching the C scatter by `nodes[i].i`. -/
structure PickSplitOut where
  hasPrefix : Bool
  prefixDatum : List Nat
  nodeLabels : List Int
  mapPairs : List (Nat × Nat)
  leafTupleDatums : List (List Nat)
deriving DecidableEq

/-- `spg_kmer_picksplit` from spg_kmer.c.  The C qsort on `spgNodePtr`
compares only the labels; the model uses insertion sort with the same
comparison (the outputs below are independent of how ties are ordered,
since equal labels land in the same node and each tuple's leaf suffix
depends only on its own key). -/
def spg_kmer_picksplit (datums : List (List Nat)) : PickSplitOut :=
  let commonLen := min (batchCommonLen datums) SPGIST_MAX_PREFIX_LENGTH
  let pairs := discPairs commonLen 0 datums
  let sortedPairs := List.insertionSort (fun a b => a.1 ≤ b.1) pairs
  let la := psLoop sortedPairs none [] []
  { hasPrefix := decide (commonLen ≠ 0)
    prefixDatum := (datums.headD []).take commonLen
    nodeLabels := la.1
    mapPairs := la.2
    leafTupleDatums :=
      datums.map (fun k => if commonLen < k.length then k.drop (commonLen + 1) else []) }

/-- Totality of the label comparison used to sort `spgNodePtr`s. -/
instance prodFstLeTotal : IsTotal (Int × Nat) (fun a b => a.1 ≤ b.1) :=
  ⟨fun a b => le_total a.1 b.1⟩

/-- Transitivity of the label comparison used to sort `spgNodePtr`s. -/
instance prodFstLeTrans : IsTrans (Int × Nat) (fun a b => a.1 ≤ b.1) :=
  ⟨fun _ _ _ h1 h2 => le_trans h1 h2⟩

/-! ## Scan keys and the IUPAC containment loop -/

/-- A scan key restricted to the three strategy numbers of the operator
class: 1 = KMER_EQUAL_STRATEGY, 2 = KMER_PREFIX_STRATEGY,
3 = KMER_CONTAINS_STRATEGY. -/
inductive ScanKey where
  | skEqual (q : List Nat)
  | skStartsWith (q : List Nat)
  | skContains (p : List Nat)
deriving DecidableEq

/-- The per-position IUPAC loop shared by the KMER_CONTAINS_STRATEGY
cases: iterate over the key bytes, pairing them with pattern bytes; stop
with false on the first empty intersection, propagate the
invalid-character error (`none`) of either codec call.  The callers
guard `pattern length ≥ key length`, so the out-of-bounds pattern read
(second case) is unreachable. -/
def iupacCheck : List Nat → List Nat → Option Bool
  | _, [] => some true
  | [], _ :: _ => none
  | p :: ps, k :: ks =>
      match iupac_code_to_bits p, nucleotide_to_bits k with
      | some qb, some kb => if qb &&& kb = 0 then some false else iupacCheck ps ks
      | _, _ => none

/-- The scan-key loop shared by both consistent functions: conjunction
over all keys with early exit on the first false (`if (!res) break`),
propagating an error of any evaluated check. -/
def scanLoop (check : ScanKey → Option Bool) : List ScanKey → Option Bool
  | [] => some true
  | sk :: rest =>
      match check sk with
      | some true => scanLoop check rest
      | some false => some false
      | none => none

/-! ## spg_kmer_leaf_consistent (spg_kmer.c) and kmer_starts_with -/

/-- `kmer_starts_with` from dna_sequence.c: false if the prefix is
longer than the kmer, else memcmp of the first `prefix_len` bytes. -/
def kmer_starts_with (kmer pfx : List Nat) : Bool :=
  if pfx.length > kmer.length then false
  else decide (kmer.take pfx.length = pfx.take pfx.length)

/-- The full value reconstructed by `spg_kmer_leaf_consistent`: when the
leaf datum is empty and level > 0 the C code reuses the reconstructed
value as is, otherwise it copies `level` bytes of it followed by the
leaf datum. -/
def leafFullValue (ctx leaf : List Nat) (level : Nat) : List Nat :=
  if leaf.length = 0 ∧ 0 < level then ctx
  else ctx.take level ++ leaf

/-- One scan-key check of `spg_kmer_leaf_consistent`.  `fullLen` is the
C variable `level + VARSIZE_ANY_EXHDR(leafValue)`; the function's
Assert guarantees `full.length = fullLen`. -/
def leafCheckKey (full : List Nat) (fullLen : Nat) (level : Nat) : ScanKey → Option Bool
  | ScanKey.skEqual q =>
      -- r = memcmp(fullValue, query, Min(queryLen, fullLen));
      -- res = (r == 0 && queryLen == fullLen)
      some (decide (full.take (min q.length fullLen) = q.take (min q.length fullLen)) &&
            decide (q.length = fullLen))
  | ScanKey.skStartsWith q =>
      -- res = (level >= queryLen) || kmer_starts_with(leafValue, query)
      some (decide (q.length ≤ level) || kmer_starts_with full q)
  | ScanKey.skContains p =>
      if fullLen ≠ p.length then some false
      else iupacCheck p full

/-- `spg_kmer_leaf_consistent` from spg_kmer.c.  Returns
`some (res, recheck)`, or `none` when an IUPAC/nucleotide conversion
errors out; `out->recheck` is set to false unconditionally. -/
def spg_kmer_leaf_consistent (ctx leaf : List Nat) (level : Nat) (keys : List ScanKey) :
    Option (Bool × Bool) :=
  let fullLen := level + leaf.length
  let full := leafFullValue ctx leaf level
  (scanLoop (leafCheckKey full fullLen level) keys).map (fun b => (b, false))

/-! ## spg_kmer_inner_consistent (spg_kmer.c) -/

/-- Input struct for `spg_kmer_inner_consistent` (the used fields of
spgInnerConsistentIn). -/
structure InnerIn where
  level : Nat
  reconstructedValue : List Nat
  hasPrefix : Bool
  prefixDatum : List Nat
  nodeLabels : List Int
  scankeys : List ScanKey
deriving DecidableEq

/-- One scan-key check of `spg_kmer_inner_consistent` against the
reconstructed value of one child node.  `thisLen` is the C variable of
the same name; the function's Assert guarantees
`reconstr.length = thisLen`. -/
def innerCheckKey (reconstr : List Nat) (thisLen : Nat) : ScanKey → Option Bool
  | ScanKey.skEqual q =>
      -- r = memcmp(reconstr, query, Min(inSize, thisLen));
      -- if (r != 0 || inSize < thisLen) res = false
      some (decide (reconstr.take (min q.length thisLen) = q.take (min q.length thisLen)) &&
            decide (¬ q.length < thisLen))
  | ScanKey.skStartsWith q =>
      -- r = memcmp(reconstr, query, Min(inSize, thisLen)); if (r != 0) res = false
      some (decide (reconstr.take (min q.length thisLen) = q.take (min q.length thisLen)))
  | ScanKey.skContains p =>
      if p.length < thisLen then some false
      else iupacCheck p reconstr

/-- The node loop of `spg_kmer_inner_consistent`: for the `i`-th child
label build the reconstruction (appending the label byte only when the
label is > 0 — labels ≤ 0 are "dummy"), evaluate all scan keys, and
emit `(nodeNumber, levelAdd, reconstructedValue)` for surviving nodes. -/
def innerLoop (ctx pfx : List Nat) (level : Nat) (keys : List ScanKey) (i : Nat) :
    List Int → Option (List (Nat × Nat × List Nat))
  | [] => some []
  | c :: rest =>
      let reconstr := if 0 < c then ctx ++ pfx ++ [c.toNat] else ctx ++ pfx
      let thisLen := if 0 < c then level + pfx.length + 1 else level + pfx.length
      match scanLoop (innerCheckKey reconstr thisLen) keys with
      | none => none
      | some true =>
          match innerLoop ctx pfx level keys (i + 1) rest with
          | none => none
          | some out => some ((i, thisLen - level, reconstr) :: out)
      | some false => innerLoop ctx pfx level keys (i + 1) rest

/-- `spg_kmer_inner_consistent` from spg_kmer.c.  The reconstruction
buffer holds `level` bytes copied from `in->reconstructedValue`
(modelled by `take level`; the function's Assert makes this the whole
list), then the node prefix, then possibly the label byte.  Result
entries are `(nodeNumber, levelAdd, reconstructedValue)`; `none` models
an ereport from the codec. -/
def spg_kmer_inner_consistent (iin : InnerIn) : Option (List (Nat × Nat × List Nat)) :=
  let pfx := if iin.hasPrefix then iin.prefixDatum else []
  innerLoop (iin.reconstructedValue.take iin.level) pfx iin.level iin.scankeys 0 iin.nodeLabels

/-! ## Spec-side predicates (from the claims' wording) -/

/-- The exact predicate each scan key denotes on the full
reconstructed key, as claim C1 words it ("equal(q) iff the full key is
byte-equal to q; prefix(q) iff the full key is at least as long as q
and its first len(q) bytes equal q; iupac_contains(p) iff the full key
has the same length as p and at every position the pattern byte's IUPAC
bit-set intersects the key byte's nucleotide bit"). -/
def leafPredClaim (full : List Nat) : ScanKey → Prop
  | ScanKey.skEqual q => full = q
  | ScanKey.skStartsWith q => q.length ≤ full.length ∧ full.take q.length = q
  | ScanKey.skContains p =>
      full.length = p.length ∧ ∀ i, i < p.length → iupacMatches (p.getD i 0) (full.getD i 0)

instance (full : List Nat) : (sk : ScanKey) → Decidable (leafPredClaim full sk)
  | ScanKey.skEqual _ => inferInstanceAs (Decidable (_ = _))
  | ScanKey.skStartsWith _ => inferInstanceAs (Decidable (_ ∧ _))
  | ScanKey.skContains _ => inferInstanceAs (Decidable (_ ∧ _))

/-- The amended leaf predicate: identical to `leafPredClaim` except
that the prefix strategy is also satisfied whenever `len(q) ≤ level`
(the code skips the check then, trusting the descent). -/
def leafPredAmended (full : List Nat) (level : Nat) : ScanKey → Prop
  | ScanKey.skEqual q => full = q
  | ScanKey.skStartsWith q =>
      q.length ≤ level ∨ (q.length ≤ full.length ∧ full.take q.length = q)
  | ScanKey.skContains p =>
      full.length = p.length ∧ ∀ i, i < p.length → iupacMatches (p.getD i 0) (full.getD i 0)

instance (full : List Nat) (level : Nat) : (sk : ScanKey) → Decidable (leafPredAmended full level sk)
  | ScanKey.skEqual _ => inferInstanceAs (Decidable (_ = _))
  | ScanKey.skStartsWith _ => inferInstanceAs (Decidable (_ ∨ _))
  | ScanKey.skContains _ => inferInstanceAs (Decidable (_ ∧ _))

/-- Validity of a scan key's argument: patterns of the containment
strategy must be IUPAC strings (equality/prefix arguments are compared
bytewise and never run through the codec). -/
def validScanKey : ScanKey → Prop
  | ScanKey.skEqual _ => True
  | ScanKey.skStartsWith _ => True
  | ScanKey.skContains p => ∀ b ∈ p, (iupac_code_to_bits b).isSome = true

instance : (sk : ScanKey) → Decidable (validScanKey sk)
  | ScanKey.skEqual _ => inferInstanceAs (Decidable True)
  | ScanKey.skStartsWith _ => inferInstanceAs (Decidable True)
  | ScanKey.skContains _ => inferInstanceAs (Decidable (∀ _ ∈ _, _))

/-! ## Generic list helpers -/

theorem getD_eq_get_of_lt (l : List Int) (i : Nat) (d : Int) (h : i < l.length) :
    l.getD i d = l.get ⟨i, h⟩ := by
  induction l generalizing i with
  | nil => simp at h
  | cons a t ih =>
    cases i with
    | zero => rfl
    | succ j => exact ih j (by simpa using h)

theorem natListGetD_eq_get_of_lt (l : List Nat) (i : Nat) (d : Nat) (h : i < l.length) :
    l.getD i d = l.get ⟨i, h⟩ := by
  induction l generalizing i with
  | nil => simp at h
  | cons a t ih =>
    cases i with
    | zero => rfl
    | succ j => exact ih j (by simpa using h)

theorem sorted_getD_lt (labels : List Int) (hs : List.Sorted (· < ·) labels)
    (i j : Nat) (hij : i < j) (hj : j < labels.length) :
    labels.getD i 0 < labels.getD j 0 := by
  have hi : i < labels.length := lt_trans hij hj
  rw [getD_eq_get_of_lt labels i 0 hi, getD_eq_get_of_lt labels j 0 hj]
  exact hs.rel_get_of_lt hij

theorem mem_iff_exists_getD (l : List Int) (c : Int) :
    c ∈ l ↔ ∃ i, ∃ _ : i < l.length, l.getD i 0 = c := by
  rw [List.mem_iff_get]
  constructor
  · rintro ⟨⟨i, hi⟩, hg⟩
    exact ⟨i, hi, by rw [getD_eq_get_of_lt l i 0 hi]; exact hg⟩
  · rintro ⟨i, hi, hg⟩
    exact ⟨⟨i, hi⟩, by rw [← getD_eq_get_of_lt l i 0 hi]; exact hg⟩

/-- If a predicate holds exactly on the first `k` positions of a list,
then `countP` equals `k`. -/
theorem countP_eq_of_index (l : List Int) (p : Int → Bool) :
    ∀ k, k ≤ l.length → (∀ i, i < l.length → (p (l.getD i 0) = true ↔ i < k)) →
    l.countP p = k := by
  induction l with
  | nil => intro k hk _; simpa using Nat.le_antisymm hk (Nat.zero_le k) ▸ rfl
  | cons a t ih =>
    intro k hk h
    by_cases hpa : p a = true
    · have hk0 : 0 < k := (h 0 (by simp)).mp hpa
      obtain ⟨k', rfl⟩ : ∃ k', k = k' + 1 := ⟨k - 1, by omega⟩
      have ht : t.countP p = k' := by
        refine ih k' (by simpa using hk) ?_
        intro i hi
        have := h (i + 1) (by simpa using Nat.succ_lt_succ hi)
        simpa [Nat.succ_lt_succ_iff] using this
      simp [List.countP_cons, hpa, ht]
    · have hk0 : k = 0 := by
        by_contra hne
        exact hpa ((h 0 (by simp)).mpr (by omega))
      subst hk0
      have ht : t.countP p = 0 := by
        rw [List.countP_eq_zero]
        intro x hx
        obtain ⟨i, hi, rfl⟩ : ∃ i, ∃ _ : i < t.length, t.getD i 0 = x := by
          exact (mem_iff_exists_getD t x).mp hx
        intro hpx
        have := (h (i + 1) (by simpa using Nat.succ_lt_succ hi)).mp (by simpa using hpx)
        omega
      simp [List.countP_cons, hpa, ht]

/-! ## Correctness of the binary search -/

/-- Invariant-based correctness of the `searchChar` loop: on a strictly
ascending label array, with everything left of `lo` smaller than `c` and
everything right of `hi` larger, the loop returns whether `c` occurs
together with the number of labels smaller than `c`. -/
theorem searchCharAux_correct (labels : List Int) (c : Int)
    (hs : List.Sorted (· < ·) labels) :
    ∀ n lo hi, hi - lo ≤ n → lo ≤ hi → hi ≤ labels.length →
    (∀ i, i < lo → labels.getD i 0 < c) →
    (∀ i, hi ≤ i → i < labels.length → c < labels.getD i 0) →
    searchCharAux labels c lo hi =
      (decide (c ∈ labels), labels.countP (fun x => decide (x < c))) := by
  intro n
  induction n with
  | zero =>
    intro lo hi hn hlh hhl hlow hhigh
    have heq : lo = hi := by omega
    subst heq
    rw [searchCharAux]
    simp only [lt_irrefl, dite_false]
    have hnotmem : c ∉ labels := by
      rw [mem_iff_exists_getD]
      rintro ⟨i, hi, hg⟩
      rcases Nat.lt_or_ge i lo with h | h
      · exact absurd hg (ne_of_lt (hlow i h))
      · exact absurd hg (ne_of_gt (hhigh i h hi))
    have hcount : labels.countP (fun x => decide (x < c)) = lo := by
      refine countP_eq_of_index labels _ lo hhl ?_
      intro i hilen
      constructor
      · intro hp
        simp only [decide_eq_true_eq] at hp
        by_contra hge
        exact lt_asymm (hhigh i (not_lt.mp hge) hilen) hp
      · intro hil
        simp only [decide_eq_true_eq]
        exact hlow i hil
    simp [hnotmem, hcount]
  | succ n ih =>
    intro lo hi hn hlh hhl hlow hhigh
    by_cases hlt : lo < hi
    · rw [searchCharAux]
      simp only [hlt, dite_true]
      have hmidlt : (lo + hi) / 2 < hi := by omega
      have hmidge : lo ≤ (lo + hi) / 2 := by omega
      have hmidlen : (lo + hi) / 2 < labels.length := lt_of_lt_of_le hmidlt hhl
      set mid := (lo + hi) / 2 with hmid
      by_cases h1 : c < labels.getD mid 0
      · simp only [h1, if_true]
        refine ih lo mid (by omega) hmidge (le_of_lt hmidlen) hlow ?_
        intro i hi1 hi2
        rcases Nat.lt_or_ge i hi with h | h
        · rcases Nat.eq_or_lt_of_le hi1 with rfl | hlt2
          · exact h1
          · exact lt_trans h1 (sorted_getD_lt labels hs mid i hlt2 hi2)
        · exact hhigh i h hi2
      · simp only [h1, if_false]
        by_cases h2 : labels.getD mid 0 < c
        · simp only [h2, if_true]
          refine ih (mid + 1) hi (by omega) (by omega) hhl ?_ hhigh
          intro i hi1
          rcases Nat.lt_or_ge i mid with h | h
          · exact lt_trans (sorted_getD_lt labels hs i mid h hmidlen) h2
          · have : i = mid := by omega
            subst this
            exact h2
        · simp only [h2, if_false]
          have hceq : labels.getD mid 0 = c := le_antisymm (not_lt.mp h1) (not_lt.mp h2)
          have hmem : c ∈ labels := by
            rw [mem_iff_exists_getD]
            exact ⟨mid, hmidlen, hceq⟩
          have hcount : labels.countP (fun x => decide (x < c)) = mid := by
            refine countP_eq_of_index labels _ mid (le_of_lt hmidlen) ?_
            intro i hilen
            constructor
            · intro hp
              simp only [decide_eq_true_eq] at hp
              by_contra hge
              rcases Nat.eq_or_lt_of_le (not_lt.mp hge) with h | h
              · rw [← h, hceq] at hp
                exact lt_irrefl c hp
              · have hgt := sorted_getD_lt labels hs mid i h hilen
                rw [hceq] at hgt
                exact lt_asymm hgt hp
            · intro hil
              simp only [decide_eq_true_eq]
              calc labels.getD i 0 < labels.getD mid 0 :=
                    sorted_getD_lt labels hs i mid hil hmidlen
                _ = c := hceq
          simp [hmem, hcount]
    · rw [searchCharAux]
      simp only [hlt, dite_false]
      have heq : lo = hi := by omega
      subst heq
      have hnotmem : c ∉ labels := by
        rw [mem_iff_exists_getD]
        rintro ⟨i, hi, hg⟩
        rcases Nat.lt_or_ge i lo with h | h
        · exact absurd hg (ne_of_lt (hlow i h))
        · exact absurd hg (ne_of_gt (hhigh i h hi))
      have hcount : labels.countP (fun x => decide (x < c)) = lo := by
        refine countP_eq_of_index labels _ lo hhl ?_
        intro i hilen
        constructor
        · intro hp
          simp only [decide_eq_true_eq] at hp
          by_contra hge
          exact lt_asymm (hhigh i (not_lt.mp hge) hilen) hp
        · intro hil
          simp only [decide_eq_true_eq]
          exact hlow i hil
      simp [hnotmem, hcount]

/-- Main specification of `searchChar` on strictly ascending labels. -/
theorem searchChar_correct (labels : List Int) (c : Int)
    (hs : List.Sorted (· < ·) labels) :
    searchChar labels c =
      (decide (c ∈ labels), labels.countP (fun x => decide (x < c))) := by
  refine searchCharAux_correct labels c hs labels.length 0 labels.length
    (by omega) (Nat.zero_le _) le_rfl ?_ ?_
  · intro i h; omega
  · intro i h1 h2; omega

/-- On a strictly ascending list containing `c`, the number of smaller
elements is exactly the (unique) index holding `c`. -/
theorem countP_lt_is_index (labels : List Int) (c : Int)
    (hs : List.Sorted (· < ·) labels) (hmem : c ∈ labels) :
    labels.getD (labels.countP (fun x => decide (x < c))) 0 = c ∧
    ∀ j, j < labels.length → labels.getD j 0 = c →
      j = labels.countP (fun x => decide (x < c)) := by
  obtain ⟨i, hi, hg⟩ := (mem_iff_exists_getD labels c).mp hmem
  have hcount : labels.countP (fun x => decide (x < c)) = i := by
    refine countP_eq_of_index labels _ i (le_of_lt hi) ?_
    intro j hj
    constructor
    · intro hp
      simp only [decide_eq_true_eq] at hp
      by_contra hge
      rcases Nat.eq_or_lt_of_le (not_lt.mp hge) with h | h
      · rw [← h, hg] at hp
        exact lt_irrefl c hp
      · have hgt := sorted_getD_lt labels hs i j h hj
        rw [hg] at hgt
        exact lt_asymm hgt hp
    · intro hij
      simp only [decide_eq_true_eq]
      rw [← hg]
      exact sorted_getD_lt labels hs j i hij hi
  constructor
  · rw [hcount]; exact hg
  · intro j hj hgj
    rw [hcount]
    rcases Nat.lt_trichotomy j i with h | h | h
    · have hlt := sorted_getD_lt labels hs j i h hi
      rw [hgj, hg] at hlt
      exact absurd hlt (lt_irrefl c)
    · exact h
    · have hlt := sorted_getD_lt labels hs i j h hj
      rw [hgj, hg] at hlt
      exact absurd hlt (lt_irrefl c)

/-! ## Claim C7: the alphabet codec tables -/

/-- Claim C7: `nucleotide_to_bits` maps 'A'→1, 'C'→2, 'G'→4, 'T'→8 and
fails on every other byte; `iupac_code_to_bits` maps each of the 15
IUPAC letters to the union of its constituent nucleotide bits (R→5,
Y→10, S→6, W→9, K→12, M→3, B→14, D→13, H→11, V→7, N→15) and fails on
every other byte. -/
theorem codec_maps_exactly :
    (nucleotide_to_bits 65 = some 1 ∧ nucleotide_to_bits 67 = some 2 ∧
     nucleotide_to_bits 71 = some 4 ∧ nucleotide_to_bits 84 = some 8) ∧
    (∀ c : Nat, c ≠ 65 → c ≠ 67 → c ≠ 71 → c ≠ 84 → nucleotide_to_bits c = none) ∧
    (iupac_code_to_bits 65 = some 1 ∧ iupac_code_to_bits 67 = some 2 ∧
     iupac_code_to_bits 71 = some 4 ∧ iupac_code_to_bits 84 = some 8 ∧
     iupac_code_to_bits 82 = some 5 ∧ iupac_code_to_bits 89 = some 10 ∧
     iupac_code_to_bits 83 = some 6 ∧ iupac_code_to_bits 87 = some 9 ∧
     iupac_code_to_bits 75 = some 12 ∧ iupac_code_to_bits 77 = some 3 ∧
     iupac_code_to_bits 66 = some 14 ∧ iupac_code_to_bits 68 = some 13 ∧
     iupac_code_to_bits 72 = some 11 ∧ iupac_code_to_bits 86 = some 7 ∧
     iupac_code_to_bits 78 = some 15) ∧
    (∀ c : Nat, c ∉ [65, 66, 67, 68, 71, 72, 75, 77, 78, 82, 83, 84, 86, 87, 89] →
      iupac_code_to_bits c = none) := by
  refine ⟨by decide, ?_, by decide, ?_⟩
  · intro c h1 h2 h3 h4
    simp [nucleotide_to_bits, h1, h2, h3, h4]
  · intro c hc
    simp only [List.mem_cons, List.not_mem_nil, or_false, not_or] at hc
    obtain ⟨hA, hB, hC, hD, hG, hH, hK, hM, hN, hR, hS, hT, hV, hW, hY⟩ := hc
    simp [iupac_code_to_bits, hA, hB, hC, hD, hG, hH, hK, hM, hN, hR, hS, hT, hV, hW, hY]

/-- Witness for C7: 'N' (78) is not a nucleotide and 'X' (88) is not an
IUPAC letter. -/
theorem codec_maps_exactly_witness :
    nucleotide_to_bits 78 = none ∧ iupac_code_to_bits 88 = none :=
  ⟨codec_maps_exactly.2.1 78 (by decide) (by decide) (by decide) (by decide),
   codec_maps_exactly.2.2.2 88 (by decide)⟩

/-! ## Claim C9: the IUPAC algebra -/

/-- Claim C9: for every pattern byte in the 15-letter IUPAC set, the
bitwise pattern match holds against all four nucleotide bytes iff the
pattern byte is 'N' (78). -/
theorem iupac_matches_all_iff_N (p : Nat)
    (hp : p ∈ [65, 67, 71, 84, 82, 89, 83, 87, 75, 77, 66, 68, 72, 86, 78]) :
    (∀ k ∈ [65, 67, 71, 84], iupacMatches p k) ↔ p = 78 := by
  fin_cases hp <;> decide

/-- Witness for C9 at 'M' (77): M = A|C misses G, so it does not match
all four nucleotides. -/
theorem iupac_matches_all_iff_N_witness :
    (∀ k ∈ [65, 67, 71, 84], iupacMatches 77 k) ↔ 77 = 78 :=
  iupac_matches_all_iff_N 77 (by decide)

/-! ## Claim C10: the searchChar binary search -/

/-- Claim C10: on a strictly ascending int16 label array, `searchChar`
returns true together with the unique position holding `c` when `c`
occurs, and otherwise false together with the count of labels smaller
than `c` (the unique sorted insertion position). -/
theorem searchChar_spec (labels : List Int) (c : Int)
    (hs : List.Sorted (· < ·) labels) :
    (c ∈ labels →
      searchChar labels c = (true, labels.countP (fun x => decide (x < c))) ∧
      labels.getD (labels.countP (fun x => decide (x < c))) 0 = c ∧
      (∀ j, j < labels.length → labels.getD j 0 = c →
        j = labels.countP (fun x => decide (x < c)))) ∧
    (c ∉ labels →
      searchChar labels c = (false, labels.countP (fun x => decide (x < c)))) := by
  constructor
  · intro hmem
    obtain ⟨hat, huniq⟩ := countP_lt_is_index labels c hs hmem
    refine ⟨?_, hat, huniq⟩
    rw [searchChar_correct labels c hs]
    simp [hmem]
  · intro hmem
    rw [searchChar_correct labels c hs]
    simp [hmem]

/-- Witness for C10 on the label array [65, 71, 84]: 71 is found at
index 1; 70 is absent and would be inserted at index 1. -/
theorem searchChar_spec_witness :
    searchChar [(65 : Int), 71, 84] 71 = (true, 1) ∧
    searchChar [(65 : Int), 71, 84] 70 = (false, 1) := by
  have h1 := (searchChar_spec [(65 : Int), 71, 84] 71 (by decide)).1 (by decide)
  have h2 := (searchChar_spec [(65 : Int), 71, 84] 70 (by decide)).2 (by decide)
  exact ⟨h1.1.trans (by decide), h2.trans (by decide)⟩

/-! ## commonPrefix lemmas -/

theorem commonPrefix_le_left : ∀ a b : List Nat, commonPrefix a b ≤ a.length := by
  intro a
  induction a with
  | nil => intro b; cases b <;> simp [commonPrefix]
  | cons x xs ih =>
    intro b
    cases b with
    | nil => simp [commonPrefix]
    | cons y ys =>
      by_cases h : x = y
      · simpa [commonPrefix, h] using ih ys
      · simp [commonPrefix, h]

theorem commonPrefix_le_right : ∀ a b : List Nat, commonPrefix a b ≤ b.length := by
  intro a
  induction a with
  | nil => intro b; cases b <;> simp [commonPrefix]
  | cons x xs ih =>
    intro b
    cases b with
    | nil => simp [commonPrefix]
    | cons y ys =>
      by_cases h : x = y
      · simpa [commonPrefix, h] using ih ys
      · simp [commonPrefix, h]

theorem commonPrefix_take_eq : ∀ a b : List Nat,
    a.take (commonPrefix a b) = b.take (commonPrefix a b) := by
  intro a
  induction a with
  | nil => intro b; cases b <;> simp [commonPrefix]
  | cons x xs ih =>
    intro b
    cases b with
    | nil => simp [commonPrefix]
    | cons y ys =>
      by_cases h : x = y
      · simp [commonPrefix, h, ih ys]
      · simp [commonPrefix, h]

/-- `commonPrefix` is maximal: it stops only at the end of one of the
strings or at the first differing byte. -/
theorem commonPrefix_maximal : ∀ a b : List Nat,
    commonPrefix a b = a.length ∨ commonPrefix a b = b.length ∨
    a.getD (commonPrefix a b) 0 ≠ b.getD (commonPrefix a b) 0 := by
  intro a
  induction a with
  | nil => intro b; left; simp [commonPrefix]
  | cons x xs ih =>
    intro b
    cases b with
    | nil => right; left; simp [commonPrefix]
    | cons y ys =>
      by_cases h : x = y
      · rcases ih ys with h1 | h1 | h1
        · left; simp [commonPrefix, h, h1]
        · right; left; simp [commonPrefix, h, h1]
        · right; right; simpa [commonPrefix, h] using h1
      · right; right; simp [commonPrefix, h]

/-! ## spg_kmer_choose_tail lemmas -/

/-- When the label is present in the (sorted) array, the tail of
`choose` descends into the matching node. -/
theorem choose_tail_found (cin : ChooseIn) (nodeChar : Int) (commonLen : Nat)
    (hs : List.Sorted (· < ·) cin.nodeLabels)
    (hmem : nodeChar ∈ cin.nodeLabels) :
    spg_kmer_choose_tail cin nodeChar commonLen =
      ChooseResult.matchNode (cin.nodeLabels.countP (fun x => decide (x < nodeChar)))
        (commonLen + if 0 ≤ nodeChar then 1 else 0)
        (cin.datum.drop (cin.level + (commonLen + if 0 ≤ nodeChar then 1 else 0))) := by
  rw [spg_kmer_choose_tail, searchChar_correct cin.nodeLabels nodeChar hs]
  have hd : decide (nodeChar ∈ cin.nodeLabels) = true := by simp [hmem]
  rw [hd]
  by_cases hrest : cin.level + (commonLen + if 0 ≤ nodeChar then 1 else 0) < cin.datum.length
  · simp [hrest]
  · rw [List.drop_eq_nil_of_le (by omega)]
    simp [hrest]

/-- When the label is absent and the node is all-the-same, the tail of
`choose` splits with the single sentinel label -2. -/
theorem choose_tail_allthesame (cin : ChooseIn) (nodeChar : Int) (commonLen : Nat)
    (hs : List.Sorted (· < ·) cin.nodeLabels)
    (hmem : nodeChar ∉ cin.nodeLabels)
    (hats : cin.allTheSame = true) :
    spg_kmer_choose_tail cin nodeChar commonLen =
      ChooseResult.splitTuple cin.hasPrefix cin.prefixDatum [(-2 : Int)] 0 false [] := by
  rw [spg_kmer_choose_tail, searchChar_correct cin.nodeLabels nodeChar hs]
  simp [hmem, hats]

/-- When the node's prefix (if any) fully matches the key's remainder,
`spg_kmer_choose` reduces to `spg_kmer_choose_tail` applied to the
computed next label and consumed prefix length. -/
theorem choose_reduces_to_tail (cin : ChooseIn) (pl : Nat) (nodeChar : Int)
    (hpl : pl = if cin.hasPrefix then cin.prefixDatum.length else 0)
    (hmatch : cin.hasPrefix = true →
      commonPrefix (cin.datum.drop cin.level) cin.prefixDatum = cin.prefixDatum.length)
    (hnc : nodeChar = if cin.level + pl < cin.datum.length
      then (cin.datum.getD (cin.level + pl) 0 : Int) else -1) :
    spg_kmer_choose cin = spg_kmer_choose_tail cin nodeChar pl := by
  subst hnc
  cases hhp : cin.hasPrefix
  · simp only [hhp, if_false] at hpl
    subst hpl
    rw [spg_kmer_choose]
    simp [hhp]
  · simp only [hhp, if_true] at hpl
    subst hpl
    have hm := hmatch hhp
    rw [spg_kmer_choose]
    simp [hhp, hm]

/-! ## Claim C4: choose splits on prefix divergence -/

/-- Claim C4: when the node has a prefix and the key's remainder at the
current level diverges from it, `choose` returns a split-upward
decision: the upper prefix is the common prefix of the old prefix and
the remainder (flag unset iff it is empty), the single child label is
the first diverging byte of the old prefix, and the lower prefix is the
remainder of the original prefix after the shared bytes and the label
byte (flag unset iff it is empty). -/
theorem choose_split_divergence (cin : ChooseIn) (cl : Nat)
    (hp : cin.hasPrefix = true)
    (hcl : cl = commonPrefix (cin.datum.drop cin.level) cin.prefixDatum)
    (hdiv : cl < cin.prefixDatum.length) :
    spg_kmer_choose cin =
      ChooseResult.splitTuple (decide (cl ≠ 0)) (cin.prefixDatum.take cl)
        [(cin.prefixDatum.getD cl 0 : Int)] 0
        (decide (cin.prefixDatum.length - cl ≠ 1)) (cin.prefixDatum.drop (cl + 1)) ∧
    cin.prefixDatum.take cl = (cin.datum.drop cin.level).take cl ∧
    (cl = (cin.datum.drop cin.level).length ∨
      (cin.datum.drop cin.level).getD cl 0 ≠ cin.prefixDatum.getD cl 0) ∧
    ((cl ≠ 0) ↔ cin.prefixDatum.take cl ≠ []) ∧
    ((cin.prefixDatum.length - cl ≠ 1) ↔ cin.prefixDatum.drop (cl + 1) ≠ []) := by
  have hpne : cin.prefixDatum ≠ [] := by
    intro h
    rw [h] at hdiv
    simp at hdiv
  refine ⟨?_, ?_, ?_, ?_, ?_⟩
  · rw [spg_kmer_choose]
    simp only [hp, if_true]
    rw [if_neg (by rw [← hcl]; exact Nat.ne_of_lt hdiv), ← hcl]
  · rw [hcl]
    exact (commonPrefix_take_eq (cin.datum.drop cin.level) cin.prefixDatum).symm
  · rcases commonPrefix_maximal (cin.datum.drop cin.level) cin.prefixDatum with h | h | h
    · left; rw [hcl]; exact h
    · exfalso; rw [← hcl] at h; omega
    · right; rw [hcl]; exact h
  · simp only [ne_eq, List.take_eq_nil_iff]
    simp [hpne]
  · simp only [ne_eq, List.drop_eq_nil_iff]
    omega

/-- Witness for C4: inserting ACGT at level 1 into a node with prefix
CTT: the remainder CGT shares only C with the prefix, so the node is
split with upper prefix [C], label 'T' (84) and lower prefix [T]. -/
theorem choose_split_divergence_witness :
    spg_kmer_choose ⟨[65, 67, 71, 84], 1, true, [67, 84, 84], [], false⟩ =
      ChooseResult.splitTuple true [67] [(84 : Int)] 0 true [84] := by
  have h := choose_split_divergence ⟨[65, 67, 71, 84], 1, true, [67, 84, 84], [], false⟩ 1
    rfl (by decide) (by decide)
  exact h.1.trans (by decide)

/-! ## Claim C5: choose descends into an existing child -/

/-- Claim C5: when the node's prefix fully matches the key's remainder
(prefix length 0 when absent), the next label is the first key byte
after the consumed prefix (or -1 when the key is exhausted); if that
label occurs among the node's labels, `choose` descends to the match
position, advancing the level by prefix length + 1 for a byte label and
by the prefix length for -1, with the residual datum being exactly the
key's bytes after level + levelAdd. -/
theorem choose_descend (cin : ChooseIn) (pl : Nat) (nodeChar : Int)
    (hs : List.Sorted (· < ·) cin.nodeLabels)
    (hpl : pl = if cin.hasPrefix then cin.prefixDatum.length else 0)
    (hmatch : cin.hasPrefix = true →
      commonPrefix (cin.datum.drop cin.level) cin.prefixDatum = cin.prefixDatum.length)
    (hnc : nodeChar = if cin.level + pl < cin.datum.length
      then (cin.datum.getD (cin.level + pl) 0 : Int) else -1)
    (hmem : nodeChar ∈ cin.nodeLabels) :
    spg_kmer_choose cin =
      ChooseResult.matchNode (cin.nodeLabels.countP (fun x => decide (x < nodeChar)))
        (pl + if 0 ≤ nodeChar then 1 else 0)
        (cin.datum.drop (cin.level + (pl + if 0 ≤ nodeChar then 1 else 0))) ∧
    cin.nodeLabels.getD (cin.nodeLabels.countP (fun x => decide (x < nodeChar))) 0 = nodeChar := by
  refine ⟨?_, (countP_lt_is_index cin.nodeLabels nodeChar hs hmem).1⟩
  rw [choose_reduces_to_tail cin pl nodeChar hpl hmatch hnc]
  exact choose_tail_found cin nodeChar pl hs hmem

/-- Witness for C5: inserting ACG at level 0 into a prefixless node
with labels [65, 71]: label 'A' (65) matches slot 0, the level advances
by 1 and the residual is CG. -/
theorem choose_descend_witness :
    spg_kmer_choose ⟨[65, 67, 71], 0, false, [], [(65 : Int), 71], false⟩ =
      ChooseResult.matchNode 0 1 [67, 71] := by
  have h := choose_descend ⟨[65, 67, 71], 0, false, [], [(65 : Int), 71], false⟩ 0 65
    (by decide) (by decide) (by decide) (by decide) (by decide)
  exact h.1.trans (by decide)

/-! ## Claim C8: choose splits an all-the-same node -/

/-- Claim C8: when the prefix matches, the computed label is absent and
the node carries the all-the-same flag, `choose` splits upward keeping
the original prefix (present iff the node had one), with the single
child slot labelled by the sentinel -2, designating slot 0 as the
downlink, and giving the lower node no prefix. -/
theorem choose_allthesame_split (cin : ChooseIn) (pl : Nat) (nodeChar : Int)
    (hs : List.Sorted (· < ·) cin.nodeLabels)
    (hpl : pl = if cin.hasPrefix then cin.prefixDatum.length else 0)
    (hmatch : cin.hasPrefix = true →
      commonPrefix (cin.datum.drop cin.level) cin.prefixDatum = cin.prefixDatum.length)
    (hnc : nodeChar = if cin.level + pl < cin.datum.length
      then (cin.datum.getD (cin.level + pl) 0 : Int) else -1)
    (hmem : nodeChar ∉ cin.nodeLabels)
    (hats : cin.allTheSame = true) :
    spg_kmer_choose cin =
      ChooseResult.splitTuple cin.hasPrefix cin.prefixDatum [(-2 : Int)] 0 false [] := by
  rw [choose_reduces_to_tail cin pl nodeChar hpl hmatch hnc]
  exact choose_tail_allthesame cin nodeChar pl hs hmem hats

/-- Witness for C8: inserting C (67) at level 0 into a prefixless
all-the-same node with label array [65]: the node is split with the
single sentinel label -2 and no prefixes. -/
theorem choose_allthesame_split_witness :
    spg_kmer_choose ⟨[67], 0, false, [], [(65 : Int)], true⟩ =
      ChooseResult.splitTuple false [] [(-2 : Int)] 0 false [] := by
  have h := choose_allthesame_split ⟨[67], 0, false, [], [(65 : Int)], true⟩ 0 67
    (by decide) (by decide) (by decide) (by decide) (by decide) (by decide)
  exact h

/-! ## More list helpers for picksplit -/

theorem getD_append_left (l1 l2 : List Int) (i : Nat) (d : Int) (h : i < l1.length) :
    (l1 ++ l2).getD i d = l1.getD i d := by
  induction l1 generalizing i with
  | nil => simp at h
  | cons a t ih =>
    cases i with
    | zero => rfl
    | succ j => simpa using ih j (by simpa using h)

theorem getD_concat_length (l : List Int) (a : Int) (d : Int) :
    (l ++ [a]).getD l.length d = a := by
  induction l with
  | nil => rfl
  | cons x t ih => simp [ih]

theorem getLast?_getD (l : List Int) (p : Int) (h : l.getLast? = some p) :
    l.getD (l.length - 1) 0 = p := by
  induction l with
  | nil => simp at h
  | cons a t ih =>
    cases t with
    | nil =>
      simp at h
      subst h
      simp
    | cons b u =>
      rw [List.getLast?_cons_cons] at h
      have := ih h
      simpa using this

theorem mem_of_getLast? (l : List Int) (p : Int) (h : l.getLast? = some p) : p ∈ l :=
  List.mem_of_mem_getLast? (by rw [h]; exact rfl)

theorem two_mem_le_length (l : List Int) (a b : Int) (ha : a ∈ l) (hb : b ∈ l)
    (hab : a ≠ b) : 2 ≤ l.length := by
  match l with
  | [] => simp at ha
  | [x] =>
    simp only [List.mem_singleton] at ha hb
    exact absurd (ha.trans hb.symm) hab
  | x :: y :: t => simp

/-! ## psLoop lemmas -/

/-- The labels array only grows during `psLoop`. -/
theorem psLoop_fst_ext : ∀ (l : List (Int × Nat)) (prev : Option Int) (labels : List Int)
    (asg : List (Nat × Nat)), ∃ t, (psLoop l prev labels asg).1 = labels ++ t := by
  intro l
  induction l with
  | nil => intro prev labels asg; exact ⟨[], by simp [psLoop]⟩
  | cons e rest ih =>
    intro prev labels asg
    obtain ⟨c, i⟩ := e
    by_cases hc : prev = some c
    · obtain ⟨t, ht⟩ := ih (some c) labels (asg ++ [(i, labels.length - 1)])
      exact ⟨t, by simp [psLoop, hc, ht]⟩
    · obtain ⟨t, ht⟩ := ih (some c) (labels ++ [c]) (asg ++ [(i, (labels ++ [c]).length - 1)])
      refine ⟨[c] ++ t, ?_⟩
      simp only [psLoop, hc, if_false]
      rw [ht, List.append_assoc]

/-- The assignment array only grows during `psLoop`. -/
theorem psLoop_snd_ext : ∀ (l : List (Int × Nat)) (prev : Option Int) (labels : List Int)
    (asg : List (Nat × Nat)), ∃ t, (psLoop l prev labels asg).2 = asg ++ t := by
  intro l
  induction l with
  | nil => intro prev labels asg; exact ⟨[], by simp [psLoop]⟩
  | cons e rest ih =>
    intro prev labels asg
    obtain ⟨c, i⟩ := e
    by_cases hc : prev = some c
    · obtain ⟨t, ht⟩ := ih (some c) labels (asg ++ [(i, labels.length - 1)])
      refine ⟨[(i, labels.length - 1)] ++ t, ?_⟩
      simp only [psLoop, hc, if_true]
      rw [ht, List.append_assoc]
    · obtain ⟨t, ht⟩ := ih (some c) (labels ++ [c]) (asg ++ [(i, (labels ++ [c]).length - 1)])
      refine ⟨[(i, (labels ++ [c]).length - 1)] ++ t, ?_⟩
      simp only [psLoop, hc, if_false]
      rw [ht, List.append_assoc]

/-- The tuple indices recorded by `psLoop` are exactly the input tuple
indices, in order. -/
theorem psLoop_snd_map_fst : ∀ (l : List (Int × Nat)) (prev : Option Int) (labels : List Int)
    (asg : List (Nat × Nat)),
    ((psLoop l prev labels asg).2).map Prod.fst = asg.map Prod.fst ++ l.map Prod.snd := by
  intro l
  induction l with
  | nil => intro prev labels asg; simp [psLoop]
  | cons e rest ih =>
    intro prev labels asg
    obtain ⟨c, i⟩ := e
    by_cases hc : prev = some c
    · simp only [psLoop, hc, if_true]
      rw [ih]
      simp
    · simp only [psLoop, hc, if_false]
      rw [ih]
      simp

/-- Invariant preservation for `psLoop`: starting from a sorted partial
label array whose last element is the previous label (when any), the
final label array is strictly sorted and its members are the initial
members together with the labels of the remaining input. -/
theorem psLoop_sorted_mem : ∀ (l : List (Int × Nat)) (prev : Option Int) (labels : List Int)
    (asg : List (Nat × Nat)),
    List.Pairwise (fun a b : Int × Nat => a.1 ≤ b.1) l →
    List.Sorted (· < ·) labels →
    (∀ p, prev = some p → labels.getLast? = some p ∧ (∀ x ∈ labels, x ≤ p) ∧ ∀ e ∈ l, p ≤ e.1) →
    (prev = none → labels = []) →
    List.Sorted (· < ·) (psLoop l prev labels asg).1 ∧
    (∀ x, x ∈ (psLoop l prev labels asg).1 ↔ x ∈ labels ∨ ∃ e ∈ l, e.1 = x) := by
  intro l
  induction l with
  | nil =>
    intro prev labels asg _ hsl _ _
    refine ⟨by simpa [psLoop] using hsl, ?_⟩
    intro x
    simp [psLoop]
  | cons e rest ih =>
    intro prev labels asg hpair hsl hprev hnone
    obtain ⟨c, i⟩ := e
    rw [List.pairwise_cons] at hpair
    by_cases hc : prev = some c
    · obtain ⟨hlast, hle, _⟩ := hprev c hc
      have hcmem : c ∈ labels := mem_of_getLast? labels c hlast
      have hrec := ih (some c) labels (asg ++ [(i, labels.length - 1)]) hpair.2 hsl
        (fun p hp => by
          obtain rfl : c = p := Option.some.inj hp
          exact ⟨hlast, hle, fun e he => hpair.1 e he⟩)
        (by intro h; simp at h)
      constructor
      · simpa [psLoop, hc] using hrec.1
      · intro x
        rw [show (psLoop ((c, i) :: rest) prev labels asg).1 =
            (psLoop rest (some c) labels (asg ++ [(i, labels.length - 1)])).1 by
          simp [psLoop, hc]]
        rw [hrec.2 x]
        constructor
        · rintro (h | ⟨e, he, hex⟩)
          · exact Or.inl h
          · exact Or.inr ⟨e, List.mem_cons_of_mem _ he, hex⟩
        · rintro (h | ⟨e, he, hex⟩)
          · exact Or.inl h
          · rcases List.mem_cons.mp he with rfl | he2
            · exact Or.inl (by rw [← hex]; exact hcmem)
            · exact Or.inr ⟨e, he2, hex⟩
    · have hltc : ∀ x ∈ labels, x < c := by
        intro x hx
        cases prev with
        | none => rw [hnone rfl] at hx; simp at hx
        | some p =>
          obtain ⟨_, hle, hbnd⟩ := hprev p rfl
          have hpc : p ≤ c := hbnd (c, i) (List.mem_cons_self _ _)
          have hpne : p ≠ c := by
            intro h; exact hc (by rw [h])
          exact lt_of_le_of_lt (hle x hx) (lt_of_le_of_ne hpc hpne)
      have hsl' : List.Sorted (· < ·) (labels ++ [c]) := by
        refine List.pairwise_append.mpr ⟨hsl, List.pairwise_singleton _ _, ?_⟩
        intro x hx y hy
        rw [List.mem_singleton] at hy
        subst hy
        exact hltc x hx
      have hrec := ih (some c) (labels ++ [c]) (asg ++ [(i, (labels ++ [c]).length - 1)])
        hpair.2 hsl'
        (fun p hp => by
          obtain rfl : c = p := Option.some.inj hp
          refine ⟨List.getLast?_concat labels, ?_, fun e he => hpair.1 e he⟩
          intro x hx
          rcases List.mem_append.mp hx with h | h
          · exact le_of_lt (hltc x h)
          · rw [List.mem_singleton] at h; exact le_of_eq h)
        (by intro h; simp at h)
      constructor
      · simpa [psLoop, hc] using hrec.1
      · intro x
        rw [show (psLoop ((c, i) :: rest) prev labels asg).1 =
            (psLoop rest (some c) (labels ++ [c])
              (asg ++ [(i, (labels ++ [c]).length - 1)])).1 by
          simp [psLoop, hc]]
        rw [hrec.2 x]
        constructor
        · rintro (h | ⟨e, he, hex⟩)
          · rcases List.mem_append.mp h with h2 | h2
            · exact Or.inl h2
            · rw [List.mem_singleton] at h2
              exact Or.inr ⟨(c, i), List.mem_cons_self _ _, h2.symm⟩
          · exact Or.inr ⟨e, List.mem_cons_of_mem _ he, hex⟩
        · rintro (h | ⟨e, he, hex⟩)
          · exact Or.inl (List.mem_append.mpr (Or.inl h))
          · rcases List.mem_cons.mp he with rfl | he2
            · refine Or.inl (List.mem_append.mpr (Or.inr ?_))
              rw [← hex]
              simp
            · exact Or.inr ⟨e, he2, hex⟩

/-- Every input element of `psLoop` is assigned a node index whose
label in the final label array is the element's own label. -/
theorem psLoop_assign : ∀ (l : List (Int × Nat)) (prev : Option Int) (labels : List Int)
    (asg : List (Nat × Nat)),
    (∀ p, prev = some p → labels.getLast? = some p) →
    ∀ e ∈ l, ∃ m, (e.2, m) ∈ (psLoop l prev labels asg).2 ∧
      (psLoop l prev labels asg).1.getD m 0 = e.1 := by
  intro l
  induction l with
  | nil => intro prev labels asg _ e he; simp at he
  | cons f rest ih =>
    intro prev labels asg hprev e he
    obtain ⟨c, i⟩ := f
    by_cases hc : prev = some c
    · have hlast := hprev c hc
      have hne : labels ≠ [] := by
        intro h; rw [h] at hlast; simp at hlast
      have hlook : labels.getD (labels.length - 1) 0 = c := getLast?_getD labels c hlast
      have hred : psLoop ((c, i) :: rest) prev labels asg =
          psLoop rest (some c) labels (asg ++ [(i, labels.length - 1)]) := by
        simp [psLoop, hc]
      rcases List.mem_cons.mp he with rfl | he2
      · refine ⟨labels.length - 1, ?_, ?_⟩
        · rw [hred]
          obtain ⟨t, ht⟩ := psLoop_snd_ext rest (some c) labels (asg ++ [(i, labels.length - 1)])
          rw [ht]
          simp
        · rw [hred]
          obtain ⟨t, ht⟩ := psLoop_fst_ext rest (some c) labels (asg ++ [(i, labels.length - 1)])
          rw [ht, getD_append_left labels t _ 0 (by
            cases labels with
            | nil => exact absurd rfl hne
            | cons a u => simp)]
          exact hlook
      · rw [hred]
        exact ih (some c) labels (asg ++ [(i, labels.length - 1)])
          (fun p hp => by
            obtain rfl : c = p := Option.some.inj hp
            exact hlast) e he2
    · have hred : psLoop ((c, i) :: rest) prev labels asg =
          psLoop rest (some c) (labels ++ [c]) (asg ++ [(i, (labels ++ [c]).length - 1)]) := by
        simp [psLoop, hc]
      have hlen : (labels ++ [c]).length - 1 = labels.length := by simp
      rcases List.mem_cons.mp he with rfl | he2
      · refine ⟨labels.length, ?_, ?_⟩
        · rw [hred]
          obtain ⟨t, ht⟩ := psLoop_snd_ext rest (some c) (labels ++ [c])
            (asg ++ [(i, (labels ++ [c]).length - 1)])
          rw [ht, hlen]
          simp
        · rw [hred]
          obtain ⟨t, ht⟩ := psLoop_fst_ext rest (some c) (labels ++ [c])
            (asg ++ [(i, (labels ++ [c]).length - 1)])
          rw [ht, getD_append_left (labels ++ [c]) t _ 0 (by simp)]
          exact getD_concat_length labels c 0
      · rw [hred]
        exact ih (some c) (labels ++ [c]) (asg ++ [(i, (labels ++ [c]).length - 1)])
          (fun p hp => by
            obtain rfl : c = p := Option.some.inj hp
            exact List.getLast?_concat labels) e he2

/-- If all remaining labels equal the previous one, `psLoop` adds no
new node. -/
theorem psLoop_const : ∀ (l : List (Int × Nat)) (labels : List Int)
    (asg : List (Nat × Nat)) (c0 : Int),
    (∀ e ∈ l, e.1 = c0) →
    (psLoop l (some c0) labels asg).1 = labels := by
  intro l
  induction l with
  | nil => intro labels asg c0 _; simp [psLoop]
  | cons f rest ih =>
    intro labels asg c0 hall
    obtain ⟨c, i⟩ := f
    have hc : c = c0 := hall (c, i) (List.mem_cons_self _ _)
    subst hc
    have : (psLoop ((c, i) :: rest) (some c) labels asg) =
        psLoop rest (some c) labels (asg ++ [(i, labels.length - 1)]) := by
      simp [psLoop]
    rw [this]
    exact ih labels _ c (fun e he => hall e (List.mem_cons_of_mem _ he))

/-! ## discPairs lemmas -/

theorem discPairs_length (cl : Nat) : ∀ (i : Nat) (l : List (List Nat)),
    (discPairs cl i l).length = l.length := by
  intro i l
  induction l generalizing i with
  | nil => rfl
  | cons k t ih => simp [discPairs, ih]

theorem discPairs_map_fst (cl : Nat) : ∀ (i : Nat) (l : List (List Nat)),
    (discPairs cl i l).map Prod.fst = l.map (discriminator cl) := by
  intro i l
  induction l generalizing i with
  | nil => rfl
  | cons k t ih => simp [discPairs, ih]

theorem discPairs_map_snd (cl : Nat) : ∀ (i : Nat) (l : List (List Nat)),
    (discPairs cl i l).map Prod.snd = List.range' i l.length := by
  intro i l
  induction l generalizing i with
  | nil => rfl
  | cons k t ih => simp [discPairs, ih, List.range'_succ]

theorem discPairs_mem (cl : Nat) : ∀ (l : List (List Nat)) (i j : Nat), j < l.length →
    (discriminator cl (l.getD j []), i + j) ∈ discPairs cl i l := by
  intro l
  induction l with
  | nil => intro i j h; simp at h
  | cons k t ih =>
    intro i j h
    cases j with
    | zero => simp [discPairs]
    | succ j2 =>
      have hrec := ih (i + 1) j2 (by simpa using h)
      have harith : i + (j2 + 1) = (i + 1) + j2 := by omega
      rw [List.getD_cons_succ, harith]
      exact List.mem_cons_of_mem _ hrec

/-! ## Claim C3: the picksplit contract -/

/-- Claim C3: for every non-empty batch, `picksplit` emits at least two
child slots when two batch keys have distinct discriminators, exactly
one slot when all batch keys are identical; the emitted labels are the
distinct discriminators in strictly ascending order, the recorded
tuple indices are a permutation of all input positions, and every
input tuple is assigned to the slot whose label is its discriminator. -/
theorem picksplit_contract (datums : List (List Nat)) (cl : Nat)
    (hne : datums ≠ [])
    (hcl : cl = min (batchCommonLen datums) SPGIST_MAX_PREFIX_LENGTH) :
    ((∃ k1 ∈ datums, ∃ k2 ∈ datums, discriminator cl k1 ≠ discriminator cl k2) →
      2 ≤ (spg_kmer_picksplit datums).nodeLabels.length) ∧
    ((∀ k ∈ datums, k = datums.headD []) →
      (spg_kmer_picksplit datums).nodeLabels.length = 1) ∧
    List.Sorted (· < ·) (spg_kmer_picksplit datums).nodeLabels ∧
    (∀ x : Int, x ∈ (spg_kmer_picksplit datums).nodeLabels ↔
      ∃ k ∈ datums, discriminator cl k = x) ∧
    List.Perm ((spg_kmer_picksplit datums).mapPairs.map Prod.fst) (List.range datums.length) ∧
    (∀ i, i < datums.length → ∃ m, (i, m) ∈ (spg_kmer_picksplit datums).mapPairs ∧
      (spg_kmer_picksplit datums).nodeLabels.getD m 0 = discriminator cl (datums.getD i [])) := by
  have hlab : (spg_kmer_picksplit datums).nodeLabels =
      (psLoop (List.insertionSort (fun a b : Int × Nat => a.1 ≤ b.1)
        (discPairs cl 0 datums)) none [] []).1 := by
    rw [hcl]
    rfl
  have hmap : (spg_kmer_picksplit datums).mapPairs =
      (psLoop (List.insertionSort (fun a b : Int × Nat => a.1 ≤ b.1)
        (discPairs cl 0 datums)) none [] []).2 := by
    rw [hcl]
    rfl
  set pairs := discPairs cl 0 datums with hpairs
  set sorted := List.insertionSort (fun a b : Int × Nat => a.1 ≤ b.1) pairs with hsortdef
  have hperm : List.Perm sorted pairs := List.perm_insertionSort _ pairs
  have hpw : List.Pairwise (fun a b : Int × Nat => a.1 ≤ b.1) sorted :=
    List.sorted_insertionSort (fun a b : Int × Nat => a.1 ≤ b.1) pairs
  have hmain := psLoop_sorted_mem sorted none [] [] hpw (by simp)
    (fun p hp => absurd hp (by simp)) (fun _ => rfl)
  have hmem2 : ∀ x : Int, x ∈ (psLoop sorted none [] []).1 ↔
      ∃ k ∈ datums, discriminator cl k = x := by
    intro x
    rw [hmain.2 x]
    simp only [List.not_mem_nil, false_or]
    constructor
    · rintro ⟨e, he, hex⟩
      have he2 : e ∈ pairs := (hperm.mem_iff).mp he
      have hfst : e.1 ∈ pairs.map Prod.fst := List.mem_map_of_mem _ he2
      rw [hpairs, discPairs_map_fst] at hfst
      obtain ⟨k, hk, hdk⟩ := List.mem_map.mp hfst
      exact ⟨k, hk, by rw [hdk, hex]⟩
    · rintro ⟨k, hk, hdk⟩
      have hfst : discriminator cl k ∈ pairs.map Prod.fst := by
        rw [hpairs, discPairs_map_fst]
        exact List.mem_map_of_mem _ hk
      obtain ⟨e, he, hex⟩ := List.mem_map.mp hfst
      exact ⟨e, (hperm.mem_iff).mpr he, by rw [hex, hdk]⟩
  refine ⟨?_, ?_, ?_, ?_, ?_, ?_⟩
  · rintro ⟨k1, hk1, k2, hk2, hne12⟩
    have h1 : discriminator cl k1 ∈ (spg_kmer_picksplit datums).nodeLabels := by
      rw [hlab]
      exact (hmem2 _).mpr ⟨k1, hk1, rfl⟩
    have h2 : discriminator cl k2 ∈ (spg_kmer_picksplit datums).nodeLabels := by
      rw [hlab]
      exact (hmem2 _).mpr ⟨k2, hk2, rfl⟩
    exact two_mem_le_length _ _ _ h1 h2 hne12
  · intro hall
    have hconst : ∀ e ∈ sorted, e.1 = discriminator cl (datums.headD []) := by
      intro e he
      have he2 : e ∈ pairs := hperm.mem_iff.mp he
      have hfst : e.1 ∈ pairs.map Prod.fst := List.mem_map_of_mem _ he2
      rw [hpairs, discPairs_map_fst] at hfst
      obtain ⟨k, hk, hdk⟩ := List.mem_map.mp hfst
      rw [← hdk, hall k hk]
    have hlen : sorted.length = datums.length := by
      rw [hperm.length_eq, hpairs, discPairs_length]
    have hne2 : sorted ≠ [] := by
      intro h
      rw [h] at hlen
      cases datums with
      | nil => exact hne rfl
      | cons a t => simp at hlen
    obtain ⟨e, rest, hs⟩ := List.exists_cons_of_ne_nil hne2
    obtain ⟨c, i⟩ := e
    have h1 : (psLoop sorted none [] []).1 = (psLoop rest (some c) [c] [(i, 0)]).1 := by
      rw [hs]
      simp [psLoop]
    have hcc : c = discriminator cl (datums.headD []) :=
      hconst (c, i) (by rw [hs]; exact List.mem_cons_self _ _)
    have h2 : (psLoop rest (some c) [c] [(i, 0)]).1 = [c] :=
      psLoop_const rest [c] [(i, 0)] c (fun e2 he2 => by
        rw [hconst e2 (by rw [hs]; exact List.mem_cons_of_mem _ he2), ← hcc])
    rw [hlab, h1, h2]
    rfl
  · rw [hlab]
    exact hmain.1
  · intro x
    rw [hlab]
    exact hmem2 x
  · have hfst : (psLoop sorted none [] []).2.map Prod.fst = sorted.map Prod.snd := by
      rw [psLoop_snd_map_fst]
      simp
    rw [hmap, hfst]
    have hsnd : pairs.map Prod.snd = List.range datums.length := by
      rw [hpairs, discPairs_map_snd, List.range_eq_range']
    have hp2 : List.Perm (sorted.map Prod.snd) (pairs.map Prod.snd) := hperm.map _
    rw [hsnd] at hp2
    exact hp2
  · intro i hi
    have hin : (discriminator cl (datums.getD i []), i) ∈ pairs := by
      have := discPairs_mem cl datums 0 i hi
      rw [hpairs]
      simpa using this
    have hin2 : (discriminator cl (datums.getD i []), i) ∈ sorted := hperm.mem_iff.mpr hin
    obtain ⟨m, hm1, hm2⟩ := psLoop_assign sorted none [] []
      (fun p hp => absurd hp (by simp)) _ hin2
    exact ⟨m, by rw [hmap]; exact hm1, by rw [hlab]; exact hm2⟩

/-- Witness for C3 on the batch [AC, AG, AC]: the common prefix is A,
the discriminators are C (67), G (71), C, so the node gets two slots. -/
theorem picksplit_contract_witness :
    2 ≤ (spg_kmer_picksplit [[65, 67], [65, 71], [65, 67]]).nodeLabels.length := by
  have h := picksplit_contract [[65, 67], [65, 71], [65, 67]] 1 (by decide) (by decide)
  exact h.1 ⟨[65, 67], by decide, [65, 71], by decide, by decide⟩

/-! ## The IUPAC loop and scan-key loop, under valid inputs -/

theorem forall_lt_succ_shift (n : Nat) (Q : Nat → Prop) :
    (∀ i, i < n + 1 → Q i) ↔ Q 0 ∧ (∀ i, i < n → Q (i + 1)) := by
  constructor
  · intro h
    exact ⟨h 0 (by omega), fun i hi => h (i + 1) (by omega)⟩
  · rintro ⟨h0, h⟩ i hi
    cases i with
    | zero => exact h0
    | succ j => exact h j (by omega)

/-- On a valid pattern and a valid key that is no longer than the
pattern, the containment loop returns exactly the positionwise
bit-intersection verdict. -/
theorem iupacCheck_eq (k p : List Nat) (hlen : k.length ≤ p.length)
    (hp : ∀ b ∈ p, (iupac_code_to_bits b).isSome = true)
    (hk : ∀ b ∈ k, (nucleotide_to_bits b).isSome = true) :
    iupacCheck p k =
      some (decide (∀ i, i < k.length → iupacMatches (p.getD i 0) (k.getD i 0))) := by
  induction k generalizing p with
  | nil => simp [iupacCheck]
  | cons kb ks ih =>
    cases p with
    | nil => simp at hlen
    | cons pb ps =>
      have hpb : (iupac_code_to_bits pb).isSome = true := hp pb (List.mem_cons_self _ _)
      have hkb : (nucleotide_to_bits kb).isSome = true := hk kb (List.mem_cons_self _ _)
      obtain ⟨qb, hqb⟩ := Option.isSome_iff_exists.mp hpb
      obtain ⟨nb, hnb⟩ := Option.isSome_iff_exists.mp hkb
      simp only [iupacCheck, hqb, hnb]
      by_cases hz : qb &&& nb = 0
      · rw [if_pos hz]
        have h0 : ¬ iupacMatches ((pb :: ps).getD 0 0) ((kb :: ks).getD 0 0) := by
          simp [iupacMatches, hqb, hnb, hz]
        have hna : ¬ (∀ i, i < (kb :: ks).length →
            iupacMatches ((pb :: ps).getD i 0) ((kb :: ks).getD i 0)) := by
          intro hall
          exact h0 (hall 0 (by simp))
        rw [decide_eq_false hna]
      · rw [if_neg hz]
        rw [ih ps (by simpa using hlen) (fun b hb => hp b (List.mem_cons_of_mem _ hb))
          (fun b hb => hk b (List.mem_cons_of_mem _ hb))]
        congr 1
        rw [decide_eq_decide, List.length_cons,
          forall_lt_succ_shift ks.length
            (fun i => iupacMatches ((pb :: ps).getD i 0) ((kb :: ks).getD i 0))]
        simp only [List.getD_cons_succ, List.getD_cons_zero]
        constructor
        · intro hA
          refine ⟨by simp [iupacMatches, hqb, hnb, hz], hA⟩
        · intro hB
          exact hB.2

/-- When every check succeeds, the scan-key loop succeeds. -/
theorem scanLoop_total (check : ScanKey → Option Bool) :
    ∀ keys : List ScanKey, (∀ sk ∈ keys, (check sk).isSome = true) →
    ∃ b, scanLoop check keys = some b := by
  intro keys
  induction keys with
  | nil => exact fun _ => ⟨true, rfl⟩
  | cons sk rest ih =>
    intro h
    obtain ⟨b, hb⟩ := Option.isSome_iff_exists.mp (h sk (List.mem_cons_self _ _))
    rw [scanLoop, hb]
    cases b
    · exact ⟨false, rfl⟩
    · obtain ⟨b2, hb2⟩ := ih (fun s hs => h s (List.mem_cons_of_mem _ hs))
      exact ⟨b2, hb2⟩

/-- When every check computes the decision of a predicate, the scan-key
loop computes the conjunction over all keys. -/
theorem scanLoop_all (check : ScanKey → Option Bool) (P : ScanKey → Prop)
    [inst : ∀ sk, Decidable (P sk)] :
    ∀ keys : List ScanKey, (∀ sk ∈ keys, check sk = some (decide (P sk))) →
    scanLoop check keys = some (decide (∀ sk ∈ keys, P sk)) := by
  intro keys
  induction keys with
  | nil => intro _; simp [scanLoop]
  | cons sk rest ih =>
    intro h
    have hsk := h sk (List.mem_cons_self _ _)
    rw [scanLoop, hsk]
    by_cases hP : P sk
    · have hd : decide (P sk) = true := by
        rw [decide_eq_true_eq]
        exact hP
      rw [hd]
      show scanLoop check rest = some (decide (∀ s ∈ sk :: rest, P s))
      rw [ih (fun s hs => h s (List.mem_cons_of_mem _ hs))]
      congr 1
      rw [decide_eq_decide]
      simp [hP]
    · have hd : decide (P sk) = false := decide_eq_false hP
      rw [hd]
      show some false = some (decide (∀ s ∈ sk :: rest, P s))
      have hall : decide (∀ s ∈ sk :: rest, P s) = false :=
        decide_eq_false (fun hall => hP (hall sk (List.mem_cons_self _ _)))
      rw [hall]

/-! ## Claim C1: leaf_consistent -/

/-- One leaf check, on the reconstructed full value, computes exactly
the amended predicate. -/
theorem leafCheckKey_spec (full : List Nat) (level : Nat)
    (hnuc : ∀ b ∈ full, (nucleotide_to_bits b).isSome = true)
    (sk : ScanKey) (hv : validScanKey sk) :
    leafCheckKey full full.length level sk =
      some (decide (leafPredAmended full level sk)) := by
  cases sk with
  | skEqual q =>
    simp only [leafCheckKey, leafPredAmended]
    congr 1
    rw [← Bool.decide_and, decide_eq_decide]
    constructor
    · rintro ⟨h1, h2⟩
      have hm : min q.length full.length = full.length := by omega
      rw [hm, List.take_length] at h1
      rw [h1, ← h2, List.take_length]
    · intro h
      subst h
      simp
  | skStartsWith q =>
    simp only [leafCheckKey, leafPredAmended, kmer_starts_with]
    congr 1
    by_cases hql : q.length ≤ level
    · simp [hql]
    · by_cases hlen : q.length > full.length
      · have hnle : ¬ q.length ≤ full.length := by omega
        simp [hql, hlen, hnle]
      · have hle : q.length ≤ full.length := by omega
        simp [hql, hlen, hle, List.take_length]
  | skContains p =>
    simp only [leafCheckKey, leafPredAmended]
    by_cases hl : full.length = p.length
    · rw [if_neg (by omega)]
      rw [iupacCheck_eq full p (le_of_eq hl) hv hnuc]
      congr 1
      rw [decide_eq_decide]
      constructor
      · intro h
        exact ⟨hl, by rw [← hl]; exact h⟩
      · intro h
        rw [hl]
        exact h.2
    · rw [if_pos hl]
      have hna : ¬ (full.length = p.length ∧
          ∀ i, i < p.length → iupacMatches (p.getD i 0) (full.getD i 0)) :=
        fun h => hl h.1
      rw [decide_eq_false hna]

/-- On a context of the asserted length, the reconstructed full value
is the context followed by the leaf datum. -/
theorem leafFullValue_eq (ctx leaf : List Nat) (level : Nat) (hctx : ctx.length = level) :
    leafFullValue ctx leaf level = ctx ++ leaf := by
  rw [leafFullValue]
  by_cases h : leaf.length = 0 ∧ 0 < level
  · rw [if_pos h]
    have hleaf : leaf = [] := List.length_eq_zero.mp h.1
    rw [hleaf, List.append_nil]
  · rw [if_neg h, ← hctx, List.take_length]

/-- Amended claim C1: on scan keys of strategies 1-3 with valid
containment patterns, with the parent context of the asserted length
and made of valid nucleotide bytes, `leaf_consistent` returns exactly
the conjunction of the amended per-key predicates (equal: byte
equality; prefix: len(q) ≤ level or the full key starts with q;
contains: equal length and positionwise IUPAC intersection), with
recheck always false. -/
theorem leaf_consistent_amended (ctx leaf : List Nat) (level : Nat) (keys : List ScanKey)
    (hctx : ctx.length = level)
    (hnuc : ∀ b ∈ ctx ++ leaf, (nucleotide_to_bits b).isSome = true)
    (hv : ∀ sk ∈ keys, validScanKey sk) :
    spg_kmer_leaf_consistent ctx leaf level keys =
      some (decide (∀ sk ∈ keys, leafPredAmended (ctx ++ leaf) level sk), false) := by
  have hlen : (ctx ++ leaf).length = level + leaf.length := by simp [hctx]
  have hchk : ∀ sk ∈ keys, leafCheckKey (ctx ++ leaf) (level + leaf.length) level sk =
      some (decide (leafPredAmended (ctx ++ leaf) level sk)) := by
    intro sk hsk
    have h := leafCheckKey_spec (ctx ++ leaf) level hnuc sk (hv sk hsk)
    rwa [hlen] at h
  show (scanLoop (leafCheckKey (leafFullValue ctx leaf level) (level + leaf.length) level)
      keys).map (fun b => (b, false)) = _
  rw [leafFullValue_eq ctx leaf level hctx,
    scanLoop_all (leafCheckKey (ctx ++ leaf) (level + leaf.length) level)
      (leafPredAmended (ctx ++ leaf) level) keys hchk]
  rfl

/-- Witness for the amended C1: full key ACG, with an equal key ACG, a
prefix key A and a containment pattern NMK, returns true with no
recheck. -/
theorem leaf_consistent_amended_witness :
    spg_kmer_leaf_consistent [65] [67, 71] 1
      [ScanKey.skEqual [65, 67, 71], ScanKey.skStartsWith [65],
       ScanKey.skContains [78, 77, 75]] = some (true, false) := by
  have h := leaf_consistent_amended [65] [67, 71] 1
    [ScanKey.skEqual [65, 67, 71], ScanKey.skStartsWith [65],
     ScanKey.skContains [78, 77, 75]] (by decide) (by decide) (by decide)
  exact h.trans (by decide)

/-- Counterexample to C1 as stated: with parent context [A] of length
level = 1 and an empty leaf datum, a prefix scan key q = [C] makes
`leaf_consistent` return true (the code skips the check because
len(q) ≤ level), although the full key A does not start with C, so the
claimed exact prefix predicate is false. -/
theorem leaf_consistent_claim_false :
    spg_kmer_leaf_consistent [65] [] 1 [ScanKey.skStartsWith [67]] = some (true, false) ∧
    ¬ leafPredClaim ([65] ++ [] : List Nat) (ScanKey.skStartsWith [67]) ∧
    ([65] : List Nat).length = 1 := by
  refine ⟨by decide, ?_, by decide⟩
  intro h
  exact absurd h (by decide)

/-! ## innerLoop lemmas -/

/-- A helper: the scan-key loop over a single key returns whatever the
single check returns (when it succeeds). -/
theorem scanLoop_single (check : ScanKey → Option Bool) (sk : ScanKey) (b : Bool)
    (h : check sk = some b) : scanLoop check [sk] = some b := by
  rw [scanLoop, h]
  cases b <;> rfl

/-- Shape of the entries emitted by the inner-consistent node loop:
entry `e` for the `j`-th label carries node number `i + j`, level
increment prefix length + 1 (and the appended label byte) for positive
labels, and prefix length (with no appended byte) for labels ≤ 0. -/
theorem innerLoop_shape (ctx pfx : List Nat) (level : Nat) (keys : List ScanKey) :
    ∀ (labels : List Int) (i : Nat) (out : List (Nat × Nat × List Nat)),
    innerLoop ctx pfx level keys i labels = some out →
    ∀ e ∈ out, ∃ j, j < labels.length ∧ e.1 = i + j ∧
      e.2.1 = (if 0 < labels.getD j 0 then pfx.length + 1 else pfx.length) ∧
      e.2.2 = (if 0 < labels.getD j 0 then ctx ++ pfx ++ [(labels.getD j 0).toNat]
               else ctx ++ pfx) := by
  intro labels
  induction labels with
  | nil =>
    intro i out h e he
    simp [innerLoop] at h
    subst h
    simp at he
  | cons c rest ih =>
    intro i out h e he
    simp only [innerLoop] at h
    cases hsl : scanLoop (innerCheckKey (if 0 < c then ctx ++ pfx ++ [c.toNat] else ctx ++ pfx)
        (if 0 < c then level + pfx.length + 1 else level + pfx.length)) keys with
    | none => rw [hsl] at h; simp at h
    | some b =>
      rw [hsl] at h
      cases b with
      | false =>
        obtain ⟨j, hj, hj1, hj2, hj3⟩ := ih (i + 1) out h e he
        refine ⟨j + 1, by simpa using hj, by rw [hj1]; omega, ?_, ?_⟩
        · rw [List.getD_cons_succ]
          exact hj2
        · rw [List.getD_cons_succ]
          exact hj3
      | true =>
        cases hil : innerLoop ctx pfx level keys (i + 1) rest with
        | none => rw [hil] at h; simp at h
        | some out2 =>
          rw [hil] at h
          have hout : out =
              (i, (if 0 < c then level + pfx.length + 1 else level + pfx.length) - level,
                if 0 < c then ctx ++ pfx ++ [c.toNat] else ctx ++ pfx) :: out2 :=
            (Option.some.inj h).symm
          subst hout
          rcases List.mem_cons.mp he with rfl | he2
          · refine ⟨0, by simp, by simp, ?_, ?_⟩
            · simp only [List.getD_cons_zero]
              by_cases h0 : 0 < c
              · rw [if_pos h0, if_pos h0]
                omega
              · rw [if_neg h0, if_neg h0]
                omega
            · simp only [List.getD_cons_zero]
          · obtain ⟨j, hj, hj1, hj2, hj3⟩ := ih (i + 1) out2 hil e he2
            refine ⟨j + 1, by simpa using hj, by rw [hj1]; omega, ?_, ?_⟩
            · rw [List.getD_cons_succ]
              exact hj2
            · rw [List.getD_cons_succ]
              exact hj3

/-- Membership of a slot in the output of the inner-consistent node
loop is exactly survival of that slot's scan-key check. -/
theorem innerLoop_mem (ctx pfx : List Nat) (level : Nat) (keys : List ScanKey) :
    ∀ (labels : List Int) (i : Nat) (out : List (Nat × Nat × List Nat)),
    innerLoop ctx pfx level keys i labels = some out →
    ∀ j, j < labels.length →
      ((∃ e ∈ out, e.1 = i + j) ↔
        scanLoop (innerCheckKey
          (if 0 < labels.getD j 0 then ctx ++ pfx ++ [(labels.getD j 0).toNat] else ctx ++ pfx)
          (if 0 < labels.getD j 0 then level + pfx.length + 1 else level + pfx.length)) keys
          = some true) := by
  intro labels
  induction labels with
  | nil => intro i out h j hj; simp at hj
  | cons c rest ih =>
    intro i out h j hj
    simp only [innerLoop] at h
    cases hsl : scanLoop (innerCheckKey (if 0 < c then ctx ++ pfx ++ [c.toNat] else ctx ++ pfx)
        (if 0 < c then level + pfx.length + 1 else level + pfx.length)) keys with
    | none => rw [hsl] at h; simp at h
    | some b =>
      rw [hsl] at h
      cases b with
      | false =>
        cases j with
        | zero =>
          simp only [List.getD_cons_zero, Nat.add_zero]
          rw [hsl]
          constructor
          · rintro ⟨e, he, hei⟩
            obtain ⟨j2, _, hj1, _, _⟩ := innerLoop_shape ctx pfx level keys rest (i + 1) out h e he
            omega
          · intro hcontra
            exact absurd hcontra (by simp)
        | succ j2 =>
          simp only [List.getD_cons_succ]
          have hiff := ih (i + 1) out h j2 (by simpa using hj)
          rw [show i + (j2 + 1) = (i + 1) + j2 by omega]
          exact hiff
      | true =>
        cases hil : innerLoop ctx pfx level keys (i + 1) rest with
        | none => rw [hil] at h; simp at h
        | some out2 =>
          rw [hil] at h
          have hout : out =
              (i, (if 0 < c then level + pfx.length + 1 else level + pfx.length) - level,
                if 0 < c then ctx ++ pfx ++ [c.toNat] else ctx ++ pfx) :: out2 :=
            (Option.some.inj h).symm
          subst hout
          cases j with
          | zero =>
            simp only [List.getD_cons_zero, Nat.add_zero]
            rw [hsl]
            constructor
            · intro _
              rfl
            · intro _
              exact ⟨_, List.mem_cons_self _ _, rfl⟩
          | succ j2 =>
            simp only [List.getD_cons_succ]
            have hiff := ih (i + 1) out2 hil j2 (by simpa using hj)
            rw [show i + (j2 + 1) = (i + 1) + j2 by omega, ← hiff]
            constructor
            · rintro ⟨e, he, hei⟩
              rcases List.mem_cons.mp he with rfl | he2
              · simp at hei
                omega
              · exact ⟨e, he2, hei⟩
            · rintro ⟨e, he, hei⟩
              exact ⟨e, List.mem_cons_of_mem _ he, hei⟩

/-- When every scan-key check succeeds on every reconstruction, the
node loop succeeds. -/
theorem innerLoop_total (ctx pfx : List Nat) (level : Nat) (keys : List ScanKey)
    (hck : ∀ sk ∈ keys, ∀ (R : List Nat) (T : Nat), (innerCheckKey R T sk).isSome = true) :
    ∀ (labels : List Int) (i : Nat),
    ∃ out, innerLoop ctx pfx level keys i labels = some out := by
  intro labels
  induction labels with
  | nil => intro i; exact ⟨[], rfl⟩
  | cons c rest ih =>
    intro i
    obtain ⟨out2, h2⟩ := ih (i + 1)
    obtain ⟨b, hb⟩ := scanLoop_total
      (innerCheckKey (if 0 < c then ctx ++ pfx ++ [c.toNat] else ctx ++ pfx)
        (if 0 < c then level + pfx.length + 1 else level + pfx.length)) keys
      (fun sk hs => hck sk hs _ _)
    cases b with
    | false =>
      refine ⟨out2, ?_⟩
      simp only [innerLoop]
      rw [hb]
      exact h2
    | true =>
      refine ⟨(i, (if 0 < c then level + pfx.length + 1 else level + pfx.length) - level,
        if 0 < c then ctx ++ pfx ++ [c.toNat] else ctx ++ pfx) :: out2, ?_⟩
      simp only [innerLoop]
      rw [hb, h2]

/-! ## Claim C2: inner_consistent level increments -/

/-- Counterexample to C2 as stated: the label 0 is a nonnegative byte
value, yet for a surviving slot with label 0 the code (which tests
`nodeChar <= 0`) reports a level increment of prefix length + 0 = 0
instead of the claimed prefix length + 1 = 1 and does not append the
label byte to the reconstruction. -/
theorem inner_consistent_label_zero :
    spg_kmer_inner_consistent ⟨0, [], false, [], [(0 : Int)], []⟩ = some [(0, 0, [])] ∧
    (0 : Int) ≥ 0 ∧
    ¬ ((0 : Nat) = 0 + 1 ∧ ([] : List Nat) = [0]) := by
  decide

/-- Amended claim C2: for every emitted surviving slot, the level
increment is the node's prefix length plus 1 and the label byte is
appended to the reconstruction exactly when the slot's label is a
positive byte value; for labels ≤ 0 (the -1 terminator, the -2
all-the-same sentinel, and the byte 0, all treated as dummy by the
code) the increment is the prefix length and the reconstruction is the
parent context plus prefix unchanged. -/
theorem inner_consistent_level_adds (iin : InnerIn) (out : List (Nat × Nat × List Nat))
    (hctx : iin.reconstructedValue.length = iin.level)
    (h : spg_kmer_inner_consistent iin = some out) :
    ∀ e ∈ out, e.1 < iin.nodeLabels.length ∧
      (0 < iin.nodeLabels.getD e.1 0 →
        e.2.1 = (if iin.hasPrefix then iin.prefixDatum else []).length + 1 ∧
        e.2.2 = iin.reconstructedValue ++ (if iin.hasPrefix then iin.prefixDatum else []) ++
          [(iin.nodeLabels.getD e.1 0).toNat]) ∧
      (iin.nodeLabels.getD e.1 0 ≤ 0 →
        e.2.1 = (if iin.hasPrefix then iin.prefixDatum else []).length ∧
        e.2.2 = iin.reconstructedValue ++ (if iin.hasPrefix then iin.prefixDatum else [])) := by
  intro e he
  have hctx2 : iin.reconstructedValue.take iin.level = iin.reconstructedValue := by
    rw [← hctx, List.take_length]
  have h2 : innerLoop iin.reconstructedValue (if iin.hasPrefix then iin.prefixDatum else [])
      iin.level iin.scankeys 0 iin.nodeLabels = some out := by
    rw [← hctx2]
    exact h
  obtain ⟨j, hj, hj1, hj2, hj3⟩ :=
    innerLoop_shape iin.reconstructedValue (if iin.hasPrefix then iin.prefixDatum else [])
      iin.level iin.scankeys iin.nodeLabels 0 out h2 e he
  have hj1' : e.1 = j := by omega
  refine ⟨by omega, ?_, ?_⟩
  · intro h0
    rw [hj1'] at h0 ⊢
    exact ⟨by rw [hj2, if_pos h0], by rw [hj3, if_pos h0]⟩
  · intro h0
    rw [hj1'] at h0
    have hn : ¬ 0 < iin.nodeLabels.getD j 0 := by omega
    exact ⟨by rw [hj2, if_neg hn], by rw [hj3, if_neg hn]⟩

/-- Witness for the amended C2 on a prefixless node with labels
[-1, 65] and no scan keys: the surviving slot for label 'A' (65)
advances the level by 1 and appends the byte. -/
theorem inner_consistent_level_adds_witness :
    ((1 : Nat), (1 : Nat), [(65 : Nat)]).1 < ([(-1 : Int), 65] : List Int).length ∧
    (0 < ([(-1 : Int), 65] : List Int).getD 1 0 →
      (1 : Nat) = (if false then ([] : List Nat) else []).length + 1 ∧
      ([65] : List Nat) = [] ++ (if false then ([] : List Nat) else []) ++
        [(([(-1 : Int), 65] : List Int).getD 1 0).toNat]) ∧
    (([(-1 : Int), 65] : List Int).getD 1 0 ≤ 0 →
      (1 : Nat) = (if false then ([] : List Nat) else []).length ∧
      ([65] : List Nat) = [] ++ (if false then ([] : List Nat) else [])) := by
  exact inner_consistent_level_adds ⟨0, [], false, [], [(-1 : Int), 65], []⟩
    [(0, 0, []), (1, 1, [65])] (by decide) (by decide) (1, 1, [65]) (by decide)

/-! ## Claim C6: inner_consistent equal pruning -/

/-- Claim C6: with a single equal(q) scan key, the function never
errors, and a child slot survives iff its reconstructed partial key
(of length L) satisfies `L ≤ len(q)` and equals the first L bytes of
q; every other slot is pruned. -/
theorem inner_consistent_equal (level : Nat) (ctx : List Nat) (hasP : Bool) (pfxD : List Nat)
    (labels : List Int) (q : List Nat) (hctx : ctx.length = level) :
    (spg_kmer_inner_consistent ⟨level, ctx, hasP, pfxD, labels,
      [ScanKey.skEqual q]⟩).isSome = true ∧
    ∀ out, spg_kmer_inner_consistent ⟨level, ctx, hasP, pfxD, labels,
        [ScanKey.skEqual q]⟩ = some out →
      ∀ j, j < labels.length → ∀ partialKey : List Nat,
        partialKey = (if 0 < labels.getD j 0
          then ctx ++ (if hasP then pfxD else []) ++ [(labels.getD j 0).toNat]
          else ctx ++ (if hasP then pfxD else [])) →
        ((∃ e ∈ out, e.1 = j) ↔
          (partialKey.length ≤ q.length ∧ partialKey = q.take partialKey.length)) := by
  have hctx2 : ctx.take level = ctx := by
    rw [← hctx, List.take_length]
  have hck : ∀ sk ∈ [ScanKey.skEqual q], ∀ (R : List Nat) (T : Nat),
      (innerCheckKey R T sk).isSome = true := by
    intro sk hs R T
    rcases List.mem_singleton.mp hs with rfl
    rfl
  constructor
  · obtain ⟨out, hout⟩ := innerLoop_total ctx (if hasP then pfxD else []) level
      [ScanKey.skEqual q] hck labels 0
    show (innerLoop (ctx.take level) (if hasP then pfxD else []) level
      [ScanKey.skEqual q] 0 labels).isSome = true
    rw [hctx2, hout]
    rfl
  · intro out hout j hj pk hpk
    have hout2 : innerLoop ctx (if hasP then pfxD else []) level
        [ScanKey.skEqual q] 0 labels = some out := by
      rw [← hctx2]
      exact hout
    have hiff := innerLoop_mem ctx (if hasP then pfxD else []) level
      [ScanKey.skEqual q] labels 0 out hout2 j hj
    simp only [Nat.zero_add] at hiff
    rw [hiff]
    have hpklen : pk.length =
        (if 0 < labels.getD j 0
          then level + (if hasP then pfxD else []).length + 1
          else level + (if hasP then pfxD else []).length) := by
      rw [hpk]
      by_cases h0 : 0 < labels.getD j 0
      · rw [if_pos h0, if_pos h0]
        simp only [List.length_append, List.length_cons, List.length_nil, hctx]
      · rw [if_neg h0, if_neg h0]
        simp only [List.length_append, hctx]
    have hscan := scanLoop_single
      (innerCheckKey pk
        (if 0 < labels.getD j 0
          then level + (if hasP then pfxD else []).length + 1
          else level + (if hasP then pfxD else []).length))
      (ScanKey.skEqual q) _ rfl
    rw [← hpk, hscan]
    constructor
    · intro hsome
      have hb := Option.some.inj hsome
      rw [Bool.and_eq_true] at hb
      obtain ⟨h1, h2⟩ := hb
      rw [decide_eq_true_eq] at h1 h2
      have hTle : (if 0 < labels.getD j 0
          then level + (if hasP then pfxD else []).length + 1
          else level + (if hasP then pfxD else []).length) ≤ q.length := by omega
      have hmin : min q.length (if 0 < labels.getD j 0
          then level + (if hasP then pfxD else []).length + 1
          else level + (if hasP then pfxD else []).length) =
          (if 0 < labels.getD j 0
          then level + (if hasP then pfxD else []).length + 1
          else level + (if hasP then pfxD else []).length) := by omega
      rw [hmin, ← hpklen, List.take_length] at h1
      refine ⟨by rw [hpklen]; exact hTle, ?_⟩
      rw [hpklen]
      rw [hpklen] at h1
      exact h1
    · rintro ⟨h1, h2⟩
      have hTle : (if 0 < labels.getD j 0
          then level + (if hasP then pfxD else []).length + 1
          else level + (if hasP then pfxD else []).length) ≤ q.length := by
        rw [← hpklen]
        exact h1
      have hmin : min q.length (if 0 < labels.getD j 0
          then level + (if hasP then pfxD else []).length + 1
          else level + (if hasP then pfxD else []).length) =
          (if 0 < labels.getD j 0
          then level + (if hasP then pfxD else []).length + 1
          else level + (if hasP then pfxD else []).length) := by omega
      rw [hmin]
      have hd1 : decide (pk.take (if 0 < labels.getD j 0
          then level + (if hasP then pfxD else []).length + 1
          else level + (if hasP then pfxD else []).length) =
          q.take (if 0 < labels.getD j 0
          then level + (if hasP then pfxD else []).length + 1
          else level + (if hasP then pfxD else []).length)) = true := by
        rw [decide_eq_true_eq, ← hpklen, List.take_length]
        exact h2
      have hd2 : decide (¬ q.length < (if 0 < labels.getD j 0
          then level + (if hasP then pfxD else []).length + 1
          else level + (if hasP then pfxD else []).length)) = true := by
        rw [decide_eq_true_eq]
        omega
      rw [hd1, hd2]
      rfl

/-- Witness for C6 on a prefixless node with labels [65, 67] and the
equal key q = A: slot 0 (partial key A) survives. -/
theorem inner_consistent_equal_witness :
    (∃ e ∈ [((0 : Nat), (1 : Nat), [(65 : Nat)])], e.1 = 0) ↔
      (([65] : List Nat).length ≤ ([65] : List Nat).length ∧
       ([65] : List Nat) = ([65] : List Nat).take ([65] : List Nat).length) := by
  have h := inner_consistent_equal 0 [] false [] [(65 : Int), 67] [65] rfl
  exact h.2 [(0, 1, [65])] (by decide) 0 (by decide) [65] (by decide)
